import Mathlib

/-!
Verification of the markdown-magic converter (src/markdown_to_html.py).

The Python source is shallowly embedded over `Str := List Char`:
Python strings become `Str`, `re` scans become executable recursive
functions with the same matching semantics, the insertion-ordered
`dict` becomes an association list updated in place, and the impure
parts of `main` (file system, the external `markdown` and `jinja2`
libraries) become explicit function parameters.  Logging calls have no
observable effect on the values computed and are dropped.
-/

/-- A Python string, modelled as a list of characters. -/
abbrev Str := List Char

/-- Embed a Lean string literal into the model. -/
def str (s : String) : Str := s.data

/-- Python regex `\s` / `str.isspace`, restricted to the ASCII whitespace
characters (the inputs of interest are ASCII). -/
def isWs (c : Char) : Bool :=
  c = ' ' || c = '\t' || c = '\n' || c = '\r' || c = '\x0b' || c = '\x0c'

/-- The character class `[A-Za-z0-9-_]` of the metadata pattern in
`extract_metadata` (inside a class, the `-` after the complete range `0-9`
is a literal, so this is letters, digits, hyphen and underscore). -/
def isKeyChar (c : Char) : Bool :=
  ('A' ≤ c && c ≤ 'Z') || ('a' ≤ c && c ≤ 'z') || ('0' ≤ c && c ≤ '9') ||
    c = '-' || c = '_'

/-- Python `str.strip()`: remove leading and trailing whitespace. -/
def stripStr (s : Str) : Str :=
  ((s.dropWhile isWs).reverse.dropWhile isWs).reverse

/-- Python `dict` insertion `d[k] = v`: overwrite the value in place if the
key is present (keeping its position, as an insertion-ordered dict does),
otherwise append the new binding at the end. -/
def dictInsert : List (Str × Str) → Str → Str → List (Str × Str)
  | [], k, v => [(k, v)]
  | p :: rest, k, v =>
      if p.1 = k then (k, v) :: rest else p :: dictInsert rest k v

/-- One line matched against `^\s*([A-Za-z0-9-_]+):\s*(.+)\s*$`
(`re.match`, line 33 of the source), returning the two capture groups.
The line comes from `split('\n')`, so it contains no newline and `.`
matches every character of it.  Both `\s*` are greedy; the second one
backtracks by one character exactly when everything after the colon is
whitespace, which makes `(.+)` capture the final whitespace character. -/
def matchMetaLine (line : Str) : Option (Str × Str) :=
  let afterWs := line.dropWhile isWs
  let key := afterWs.takeWhile isKeyChar
  let rest := afterWs.dropWhile isKeyChar
  match key, rest with
  | [], _ => none
  | _ :: _, ':' :: rest2 =>
      match rest2.dropWhile isWs, rest2.reverse with
      | [], [] => none
      | [], c :: _ => some (key, [c])
      | v, _ => some (key, v)
  | _ :: _, _ => none

/-- `extract_metadata` (lines 29-40 of the source): scan every line of the
document against the metadata pattern and record `key.strip() -> value.strip()`,
the last occurrence of a key winning. -/
def extract_metadata (markdown_content : Str) : List (Str × Str) :=
  let lines := markdown_content.splitOn '\n'
  lines.foldl
    (fun metadata line =>
      match matchMetaLine line with
      | some (k, v) => dictInsert metadata (stripStr k) (stripStr v)
      | none => metadata)
    []

/-- Does `pat` begin the list `s`?  (The primitive used to model both
regex literal matching and Python substring search.) -/
def begins : Str → Str → Bool
  | [], _ => true
  | _ :: _, [] => false
  | p :: ps, c :: cs => p = c && begins ps cs

/-- Does `pat` occur as a contiguous substring of `s`? -/
def containsSub (pat : Str) : Str → Bool
  | [] => begins pat []
  | c :: cs => begins pat (c :: cs) || containsSub pat cs

/-- Worker for `pyReplace`, structurally recursive on a fuel argument so
that the kernel can evaluate it; the fuel never runs out when it starts
at the length of the scanned text. -/
def pyReplaceGo (pat rep : Str) : Nat → Str → Str
  | _, [] => []
  | 0, s => s
  | fuel + 1, c :: cs =>
      if pat ≠ [] ∧ begins pat (c :: cs) = true then
        rep ++ pyReplaceGo pat rep fuel ((c :: cs).drop pat.length)
      else
        c :: pyReplaceGo pat rep fuel cs

/-- Python `s.replace(pat, rep)` for a nonempty `pat`: replace every
non-overlapping occurrence, scanning left to right, never rescanning the
replacement text.  (The source only ever calls `replace` with a nonempty
pattern; for an empty pattern this model leaves `s` unchanged.) -/
def pyReplace (pat rep s : Str) : Str := pyReplaceGo pat rep s.length s

/-- The literal heading tag `<hN>` for level character `N`. -/
def openTag (lv : Char) : Str := '<' :: 'h' :: lv :: '>' :: []

/-- The literal closing tag `</hN>`. -/
def closeTag (lv : Char) : Str := '<' :: '/' :: 'h' :: lv :: '>' :: []

/-- The exact text `f'<h{level}>{title}</h{level}>'` that
`generate_toc` passes to `replace` as the pattern. -/
def plainTag (lv : Char) (t : Str) : Str := openTag lv ++ t ++ closeTag lv

/-- Worker for `subWs`: the flag records whether the previous character
was whitespace, so that a hyphen is emitted only at the first character
of each whitespace run. -/
def subWsGo (prevWs : Bool) : Str → Str
  | [] => []
  | c :: cs =>
      if isWs c then
        if prevWs then subWsGo true cs else '-' :: subWsGo true cs
      else c :: subWsGo false cs

/-- Python's `re.sub(r'\s+', '-', s)`: replace every maximal run of
whitespace by a single hyphen. -/
def subWs (s : Str) : Str := subWsGo false s

/-- The anchor of a heading title: `re.sub(r'\s+', '-', title.lower())`
(line 48 of the source); `lower()` is modelled on the basic latin letters,
which is where the library function and Python agree. -/
def anchorOf (t : Str) : Str := subWs (t.map Char.toLower)

/-- The replacement text `f'<h{level} id="{anchor}">{title}</h{level}>'`
(line 50 of the source). -/
def idTag (lv : Char) (t : Str) : Str :=
  '<' :: 'h' :: lv :: ' ' :: 'i' :: 'd' :: '=' :: '"' ::
    (anchorOf t ++ '"' :: '>' :: (t ++ closeTag lv))

/-- Attempt of the regex `<h([1-6])>` at the current position: on success,
return the level character (capture group 1 is a string in Python; here the
single character) and the remaining input. -/
def headOpen (s : Str) : Option (Char × Str) :=
  match s with
  | a :: b :: c :: d :: rest =>
      if a = '<' ∧ b = 'h' ∧ d = '>' ∧ '1' ≤ c ∧ c ≤ '6' then
        some (c, rest)
      else none
  | _ => none

/-- The non-greedy group `(.*?)</hN>`: the title is the text up to the
first `</hN>`; `.` does not match a newline, so the attempt fails if a
newline appears first.  Returns the title and the input after `</hN>`. -/
def findTitle (lv : Char) : Str → Option (Str × Str)
  | [] => none
  | c :: cs =>
      if begins (closeTag lv) (c :: cs) then
        some ([], (c :: cs).drop (closeTag lv).length)
      else if c = '\n' then none
      else (findTitle lv cs).map (fun p => (c :: p.1, p.2))

/-- Worker for `findAll`, structurally recursive on a fuel argument; the
fuel never runs out when it starts at the length of the scanned text. -/
def findAllGo : Nat → Str → List (Char × Str)
  | _, [] => []
  | 0, _ => []
  | fuel + 1, c :: cs =>
      match headOpen (c :: cs) with
      | some (lv, rest) =>
          match findTitle lv rest with
          | some (title, rest2) => (lv, title) :: findAllGo fuel rest2
          | none => findAllGo fuel cs
      | none => findAllGo fuel cs

/-- `re.findall(r'<h([1-6])>(.*?)</h\1>', s)` (line 46 of the source):
scan left to right, collecting non-overlapping matches as
(level, title) pairs and resuming after each match. -/
def findAll (s : Str) : List (Char × Str) := findAllGo s.length s

/-- `generate_toc` (lines 42-51 of the source): collect all heading
matches, then for each one in order derive the anchor, append the
`{title, anchor}` entry to the TOC, and rewrite every occurrence of the
bare heading tag in the (progressively mutated) HTML to carry
`id="anchor"`. -/
def generate_toc (html_content : Str) : List (Str × Str) × Str :=
  (findAll html_content).foldl
    (fun acc m =>
      (acc.1 ++ [(m.2, anchorOf m.2)],
        pyReplace (plainTag m.1 m.2) (idTag m.1 m.2) acc.2))
    ([], html_content)

/-- The parsed JSON configuration file: the two fields the source reads
from it (`config.get('css')`, `config.get('template', ...)`); a missing
or empty config file is `⟨none, none⟩`. -/
structure Config where
  css : Option Str
  template : Option Str

/-- The parsed command line after `argparse` has applied its defaults
(lines 60-66 of the source): `--css` defaults to `None`, `--template`
defaults to the string `'templates/default_template.html'`. -/
structure Args where
  input : Str
  output : Str
  css : Option Str
  template : Str

/-- The built-in default template path (line 64 of the source). -/
def defaultTemplatePath : Str := str "templates/default_template.html"

/-- Build `Args` from a command line: `none` means the flag was absent,
in which case `argparse` substitutes the declared default. -/
def argsOfCli (input output : Str) (cssFlag templateFlag : Option Str) : Args :=
  ⟨input, output, cssFlag, templateFlag.getD defaultTemplatePath⟩

/-- Line 76 of the source, `css_file = args.css or config.get('css')`:
Python `or` takes the second operand when the first is `None` or the
empty (falsy) string. -/
def resolveCss (args : Args) (config : Config) : Option Str :=
  match args.css with
  | some s => if s = [] then config.css else some s
  | none => config.css

/-- Line 77 of the source,
`template_file = args.template or config.get('template', 'templates/default_template.html')`:
`args.template` is a string (already defaulted by `argparse`), and the
config value is consulted only when that string is empty (falsy). -/
def resolveTemplate (args : Args) (config : Config) : Str :=
  if args.template = [] then config.template.getD defaultTemplatePath
  else args.template

/-- `read_file` (lines 11-18 of the source): the file system is a map
from paths to contents; a missing file (`FileNotFoundError`) yields
`none`, mirroring the `return None` of the handler. -/
def read_file (fs : Str → Option Str) (file_path : Str) : Option Str :=
  fs file_path

/-- `convert_markdown_to_html` (lines 20-22 of the source): delegate to
the external renderer, invoked with the extension list `['toc']`. -/
def convert_markdown_to_html (render : Str → List Str → Str)
    (markdown_content : Str) : Str :=
  render markdown_content [str "toc"]

/-- The three template variables bound positionally by `apply_template`
before `**metadata` is expanded (line 57 of the source). -/
def reservedNames : List Str :=
  [str "html_content", str "css_content", str "toc"]

/-- The rendering context handed to the external template engine. -/
structure RenderCtx where
  html_content : Str
  css_content : Option Str
  toc : List (Str × Str)
  metadata : List (Str × Str)

/-- `apply_template` (lines 53-57 of the source).  `render` stands for the
external `jinja2` engine applied to the template text and the context.
A `none` result models a raised exception: either the template file was
missing (`Template(None)` raises), or a metadata key collides with one of
the keyword arguments `html_content`, `css_content`, `toc` — in Python,
building the call's keyword mapping from `**metadata` raises `TypeError`
(duplicate keyword argument) before the engine runs. -/
def apply_template (fs : Str → Option Str) (render : Str → RenderCtx → Str)
    (html_content : Str) (metadata : List (Str × Str)) (toc : List (Str × Str))
    (template_path : Str) (css_content : Option Str) : Option Str :=
  match read_file fs template_path with
  | none => none
  | some template_str =>
      if metadata.any (fun kv => reservedNames.contains kv.1) then none
      else some (render template_str ⟨html_content, css_content, toc, metadata⟩)

/-- How one run of the pipeline ends: `finished writes` is a normal return
carrying the (path, content) pairs written by `write_file`; `crashed` is an
exception propagating out of `main`. -/
inductive Outcome
  | finished (writes : List (Str × Str))
  | crashed
deriving DecidableEq

/-- `main` (lines 59-95 of the source), after `argparse` and config-file
loading: `args` is the parsed command line, `config` the parsed JSON
config (the `os.path.exists` / `json.load` step is external input here),
`mdRender` the external markdown library and `tmplRender` the external
template engine.  `proceed` is the tail of `main` from line 93 on, shared
by the css and no-css paths.  (Lean reserves the name `main` for the
executable entry point, hence the prime.) -/
def main' (fs : Str → Option Str) (mdRender : Str → List Str → Str)
    (tmplRender : Str → RenderCtx → Str) (args : Args) (config : Config) :
    Outcome :=
  let css_file := resolveCss args config
  let template_file := resolveTemplate args config
  match read_file fs args.input with
  | none => Outcome.finished []
  | some markdown_content =>
      let metadata := extract_metadata markdown_content
      let html_content := convert_markdown_to_html mdRender markdown_content
      let p := generate_toc html_content
      let proceed : Option Str → Outcome := fun css_content =>
        match apply_template fs tmplRender p.2 metadata p.1 template_file
            css_content with
        | none => Outcome.crashed
        | some final_html => Outcome.finished [(args.output, final_html)]
      match css_file with
      | some cssPath =>
          if cssPath = [] then proceed none
          else
            match read_file fs cssPath with
            | none => Outcome.finished []
            | some css_content => proceed (some css_content)
      | none => proceed none

/-- A heading tag carrying attribute text: `<hN attrs>title</hN>` (there
is at least a space between the tag name and the `>`, which is exactly
what makes the scanner's pattern `<hN>` fail on it). -/
def attrHeadTag (lv : Char) (attrs t : Str) : Str :=
  '<' :: 'h' :: lv :: ' ' :: (attrs ++ '>' :: (t ++ closeTag lv))

/-- Interleave document segments: each segment is (text before the
heading, heading level, heading title), rendered with `f` (either
`plainTag` for the input document or `idTag` for the annotated one),
followed by the trailing text. -/
def assembleF (f : Char → Str → Str) : List (Str × Char × Str) → Str → Str
  | [], tail => tail
  | e :: rest, tail => e.1 ++ (f e.2.1 e.2.2 ++ assembleF f rest tail)

/-- A document segment: either a bare heading `<hN>title</hN>` (which
the scanner matches) or a heading tag carrying attribute text (which it
does not). -/
inductive HeadSeg
  | bare (lv : Char) (t : Str)
  | attributed (lv : Char) (attrs t : Str)

instance : Inhabited HeadSeg := ⟨HeadSeg.bare '1' []⟩

/-- Render one segment: bare headings through `f` (`plainTag` on the
input document, `idTag` on the annotated one); attributed headings
verbatim in both. -/
def renderSeg (f : Char → Str → Str) : HeadSeg → Str
  | HeadSeg.bare lv t => f lv t
  | HeadSeg.attributed lv attrs t => attrHeadTag lv attrs t

/-- Interleave mixed document segments, each preceded by its separator
text, before the trailing text. -/
def assembleS (f : Char → Str → Str) : List (Str × HeadSeg) → Str → Str
  | [], tail => tail
  | e :: rest, tail => e.1 ++ (renderSeg f e.2 ++ assembleS f rest tail)

/-- The (level, title) pairs of the bare headings only, in document
order. -/
def segMatches (segs : List (Str × HeadSeg)) : List (Char × Str) :=
  segs.filterMap (fun e =>
    match e.2 with
    | HeadSeg.bare lv t => some (lv, t)
    | HeadSeg.attributed _ _ _ => none)

/-- The TOC entries of the bare headings only, in document order. -/
def segEntries (segs : List (Str × HeadSeg)) : List (Str × Str) :=
  segs.filterMap (fun e =>
    match e.2 with
    | HeadSeg.bare _ t => some (t, anchorOf t)
    | HeadSeg.attributed _ _ _ => none)

/-- Well-formedness of one segment: heading level between 1 and 6, the
separator text free of `<`, the title free of `<` (and, for a bare
heading, of newline, without which the scanner could not match it), and
for an attributed heading the attribute text free of `<` as well. -/
def segOk : Str × HeadSeg → Prop
  | (sep, HeadSeg.bare lv t) =>
      ('1' ≤ lv ∧ lv ≤ '6') ∧ (∀ c ∈ sep, c ≠ '<') ∧
        (∀ c ∈ t, c ≠ '<' ∧ c ≠ '\n')
  | (sep, HeadSeg.attributed lv attrs t) =>
      ('1' ≤ lv ∧ lv ≤ '6') ∧ (∀ c ∈ sep, c ≠ '<') ∧
        (∀ c ∈ attrs, c ≠ '<') ∧ (∀ c ∈ t, c ≠ '<')

instance : ∀ e : Str × HeadSeg, Decidable (segOk e)
  | (sep, HeadSeg.bare lv t) =>
      inferInstanceAs (Decidable (('1' ≤ lv ∧ lv ≤ '6') ∧
        (∀ c ∈ sep, c ≠ '<') ∧ (∀ c ∈ t, c ≠ '<' ∧ c ≠ '\n')))
  | (sep, HeadSeg.attributed lv attrs t) =>
      inferInstanceAs (Decidable (('1' ≤ lv ∧ lv ≤ '6') ∧
        (∀ c ∈ sep, c ≠ '<') ∧ (∀ c ∈ attrs, c ≠ '<') ∧
        (∀ c ∈ t, c ≠ '<')))

/-! ## Basic equations and sanity checks -/

theorem pyReplaceGo_fuel {pat rep : Str} :
    ∀ (f1 f2 : Nat) (s : Str), s.length ≤ f1 → s.length ≤ f2 →
      pyReplaceGo pat rep f1 s = pyReplaceGo pat rep f2 s := by
  intro f1
  induction f1 with
  | zero =>
      intro f2 s h1 _
      have hs : s = [] := List.eq_nil_of_length_eq_zero (Nat.le_zero.mp h1)
      subst hs
      cases f2 <;> rfl
  | succ f ih =>
      intro f2 s h1 h2
      cases s with
      | nil => cases f2 <;> rfl
      | cons c cs =>
          cases f2 with
          | zero => simp at h2
          | succ g =>
              rw [pyReplaceGo, pyReplaceGo]
              split
              next hc =>
                  have hp : 0 < pat.length := List.length_pos.mpr hc.1
                  have hd1 : ((c :: cs).drop pat.length).length ≤ f := by
                    simp only [List.length_drop, List.length_cons]
                    simp only [List.length_cons] at h1
                    omega
                  have hd2 : ((c :: cs).drop pat.length).length ≤ g := by
                    simp only [List.length_drop, List.length_cons]
                    simp only [List.length_cons] at h2
                    omega
                  rw [ih g _ hd1 hd2]
              next =>
                  have hc1 : cs.length ≤ f := by
                    simp only [List.length_cons] at h1; omega
                  have hc2 : cs.length ≤ g := by
                    simp only [List.length_cons] at h2; omega
                  rw [ih g cs hc1 hc2]

theorem pyReplace_nil (pat rep : Str) : pyReplace pat rep [] = [] := rfl

/-- The recursion equation of Python's replace scan. -/
theorem pyReplace_cons (pat rep : Str) (c : Char) (cs : Str) :
    pyReplace pat rep (c :: cs) =
      if pat ≠ [] ∧ begins pat (c :: cs) = true then
        rep ++ pyReplace pat rep ((c :: cs).drop pat.length)
      else
        c :: pyReplace pat rep cs := by
  show pyReplaceGo pat rep (cs.length + 1) (c :: cs) = _
  rw [pyReplaceGo]
  split
  next hc =>
      have hp : 0 < pat.length := List.length_pos.mpr hc.1
      have hd : ((c :: cs).drop pat.length).length ≤ cs.length := by
        simp only [List.length_drop, List.length_cons]
        omega
      rw [pyReplaceGo_fuel cs.length ((c :: cs).drop pat.length).length
        ((c :: cs).drop pat.length) hd le_rfl]
      rfl
  next => rfl

theorem findTitle_length {lv : Char} :
    ∀ {s t r : Str}, findTitle lv s = some (t, r) → r.length < s.length := by
  intro s
  induction s with
  | nil => intro t r h; simp [findTitle] at h
  | cons c cs ih =>
      intro t r h
      rw [findTitle] at h
      split at h
      · simp only [Option.some.injEq, Prod.mk.injEq] at h
        have hlen : (closeTag lv).length = 5 := rfl
        rcases h with ⟨_, hr⟩
        subst hr
        simp only [List.length_drop, List.length_cons, hlen]
        omega
      · split at h
        · simp at h
        · rcases Option.map_eq_some'.mp h with ⟨⟨t0, r0⟩, h0, heq⟩
          have := ih h0
          simp only [Prod.mk.injEq] at heq
          rcases heq with ⟨_, hr⟩
          subst hr
          simp only [List.length_cons]
          omega

theorem headOpen_length {s rest : Str} {lv : Char} (h : headOpen s = some (lv, rest)) :
    rest.length + 4 = s.length := by
  unfold headOpen at h
  split at h
  · split at h
    · simp only [Option.some.injEq, Prod.mk.injEq] at h
      rcases h with ⟨_, hr⟩
      subst hr
      simp
    · simp at h
  · simp at h

theorem findAllGo_fuel :
    ∀ (f1 f2 : Nat) (s : Str), s.length ≤ f1 → s.length ≤ f2 →
      findAllGo f1 s = findAllGo f2 s := by
  intro f1
  induction f1 with
  | zero =>
      intro f2 s h1 _
      have hs : s = [] := List.eq_nil_of_length_eq_zero (Nat.le_zero.mp h1)
      subst hs
      cases f2 <;> rfl
  | succ f ih =>
      intro f2 s h1 h2
      cases s with
      | nil => cases f2 <;> rfl
      | cons c cs =>
          cases f2 with
          | zero => simp at h2
          | succ g =>
              rw [findAllGo, findAllGo]
              simp only [List.length_cons] at h1 h2
              cases hop : headOpen (c :: cs) with
              | none =>
                  dsimp only
                  exact ih g cs (by omega) (by omega)
              | some p =>
                  obtain ⟨lv, rest⟩ := p
                  have hrest := headOpen_length hop
                  simp only [List.length_cons] at hrest
                  dsimp only
                  cases hti : findTitle lv rest with
                  | none =>
                      dsimp only
                      exact ih g cs (by omega) (by omega)
                  | some q =>
                      obtain ⟨title, rest2⟩ := q
                      have hr2 := findTitle_length hti
                      dsimp only
                      rw [ih g rest2 (by omega) (by omega)]

theorem findAll_nil : findAll [] = [] := rfl

/-- The recursion equation of the findall scan. -/
theorem findAll_cons (c : Char) (cs : Str) :
    findAll (c :: cs) =
      match headOpen (c :: cs) with
      | some (lv, rest) =>
          match findTitle lv rest with
          | some (title, rest2) => (lv, title) :: findAll rest2
          | none => findAll cs
      | none => findAll cs := by
  show findAllGo (cs.length + 1) (c :: cs) = _
  rw [findAllGo]
  cases hop : headOpen (c :: cs) with
  | none => rfl
  | some p =>
      obtain ⟨lv, rest⟩ := p
      have hrest := headOpen_length hop
      simp only [List.length_cons] at hrest
      dsimp only
      cases hti : findTitle lv rest with
      | none => rfl
      | some q =>
          obtain ⟨title, rest2⟩ := q
          have hr2 := findTitle_length hti
          dsimp only
          rw [findAllGo_fuel cs.length rest2.length rest2 (by omega) le_rfl]
          rfl


/-! ## Claims about configuration resolution and the pipeline -/

/-- C1: the claim says the precedence CLI flag > JSON config field >
built-in default applies to the template path, so that with config
`{"template": "custom.html"}` and no `--template` flag the Template
Renderer receives `custom.html`.  The code disagrees: `argparse` has
already substituted the (truthy) built-in default for `args.template`,
so `args.template or config.get('template', ...)` never consults the
config.  This theorem evaluates the code at the failing input: with no
`--template` flag the resolved template path is the built-in default —
whatever the config file says — and in particular not `custom.html`. -/
theorem claim_C1_code_bug :
    (∀ (input output : Str) (cssFlag : Option Str) (config : Config),
        resolveTemplate (argsOfCli input output cssFlag none) config =
          defaultTemplatePath) ∧
    defaultTemplatePath ≠ str "custom.html" := by
  constructor
  · intro input output cssFlag config
    have hne : defaultTemplatePath ≠ [] := by decide
    simp [resolveTemplate, argsOfCli, hne]
  · decide

/-- C4: for the input
`Title: My Page\nAuthor: J. Doe\nAnother Title: Ignored\nTitle: Final`
the extracted metadata maps `Title` to `Final` (the last occurrence wins)
and `Author` to `J. Doe`, and nothing else: the line
`Another Title: Ignored` fails the pattern because a space follows the
key run before the colon. -/
theorem claim_C4 :
    extract_metadata
        (str "Title: My Page\nAuthor: J. Doe\nAnother Title: Ignored\nTitle: Final") =
      [(str "Title", str "Final"), (str "Author", str "J. Doe")] := by decide

/-- C9: if no line of the document matches the metadata pattern, the
extracted metadata mapping is empty. -/
theorem claim_C9 (md : Str)
    (h : ∀ line ∈ md.splitOn '\n', matchMetaLine line = none) :
    extract_metadata md = [] := by
  have aux : ∀ (lines : List Str) (acc : List (Str × Str)),
      (∀ l ∈ lines, matchMetaLine l = none) →
      lines.foldl
        (fun metadata line =>
          match matchMetaLine line with
          | some (k, v) => dictInsert metadata (stripStr k) (stripStr v)
          | none => metadata) acc = acc := by
    intro lines
    induction lines with
    | nil => intro acc _; rfl
    | cons l ls ih =>
        intro acc hh
        rw [List.foldl_cons, hh l (List.mem_cons_self l ls)]
        exact ih acc (fun x hx => hh x (List.mem_cons_of_mem l hx))
  simpa only [extract_metadata] using aux (md.splitOn '\n') [] h

theorem claim_C9_witness : extract_metadata (str "hello\n# world\n") = [] :=
  claim_C9 (str "hello\n# world\n") (by decide)

/-- C8: if the extracted metadata contains a key named `html_content`,
`css_content` or `toc`, the Template Renderer call errors out (in Python,
expanding `**metadata` after those keyword arguments are already bound
raises a duplicate-keyword-argument `TypeError`), rather than silently
letting either value win; in the model `apply_template` returns `none`. -/
theorem claim_C8 (fs : Str → Option Str) (render : Str → RenderCtx → Str)
    (html_content : Str) (metadata toc : List (Str × Str))
    (template_path : Str) (css_content : Option Str) (k v : Str)
    (hk : k ∈ reservedNames) (hm : (k, v) ∈ metadata) :
    apply_template fs render html_content metadata toc template_path
      css_content = none := by
  unfold apply_template read_file
  cases fs template_path with
  | none => rfl
  | some template_str =>
      have hany : metadata.any (fun kv => reservedNames.contains kv.1) = true := by
        refine List.any_eq_true.mpr ⟨(k, v), hm, ?_⟩
        simpa using hk
      simp only [if_pos hany]

theorem claim_C8_witness :
    apply_template (fun _ => some (str "T")) (fun s _ => s) (str "<p>x</p>")
      [(str "toc", str "1")] [] (str "tpl.html") none = none :=
  claim_C8 (fun _ => some (str "T")) (fun s _ => s) (str "<p>x</p>")
    [(str "toc", str "1")] [] (str "tpl.html") none (str "toc") (str "1")
    (by decide) (by decide)

/-- C7: if the input file is missing, or CSS is requested and the CSS
file is missing, the pipeline performs zero writes and terminates
normally (no unhandled error): the run returns early before any later
state, and the single output write happens only on the full success
path. -/
theorem claim_C7 :
    (∀ (fs : Str → Option Str) (mdRender : Str → List Str → Str)
        (tmplRender : Str → RenderCtx → Str) (args : Args) (config : Config),
        fs args.input = none →
        main' fs mdRender tmplRender args config = Outcome.finished []) ∧
    (∀ (fs : Str → Option Str) (mdRender : Str → List Str → Str)
        (tmplRender : Str → RenderCtx → Str) (args : Args) (config : Config)
        (cssPath md : Str),
        fs args.input = some md →
        resolveCss args config = some cssPath → cssPath ≠ [] →
        fs cssPath = none →
        main' fs mdRender tmplRender args config = Outcome.finished []) := by
  constructor
  · intro fs mdRender tmplRender args config h
    simp [main', read_file, h]
  · intro fs mdRender tmplRender args config cssPath md h1 h2 h3 h4
    simp [main', read_file, h1, h2, h3, h4]

theorem claim_C7_witness :
    main' (fun _ => none) (fun md _ => md) (fun s _ => s)
        (argsOfCli (str "in.md") (str "out.html") none none) ⟨none, none⟩ =
      Outcome.finished [] ∧
    main' (fun p => if p = str "in.md" then some (str "body") else none)
        (fun md _ => md) (fun s _ => s)
        (argsOfCli (str "in.md") (str "out.html") (some (str "style.css")) none)
        ⟨none, none⟩ =
      Outcome.finished [] :=
  ⟨claim_C7.1 _ _ _ _ ⟨none, none⟩ rfl,
   claim_C7.2 _ _ _ _ ⟨none, none⟩ (str "style.css") (str "body")
     (by decide) (by decide) (by decide) (by decide)⟩

/-- C10: the pipeline is deterministic: two runs over extensionally equal
file systems, renderers, template engines, command lines and configs
produce the same outcome (in particular byte-identical output writes). -/
theorem claim_C10 (fs1 fs2 : Str → Option Str)
    (r1 r2 : Str → List Str → Str) (t1 t2 : Str → RenderCtx → Str)
    (args1 args2 : Args) (cfg1 cfg2 : Config)
    (hfs : ∀ p, fs1 p = fs2 p) (hr : ∀ s e, r1 s e = r2 s e)
    (ht : ∀ s c, t1 s c = t2 s c) (ha : args1 = args2) (hc : cfg1 = cfg2) :
    main' fs1 r1 t1 args1 cfg1 = main' fs2 r2 t2 args2 cfg2 := by
  have h1 : fs1 = fs2 := funext hfs
  have h2 : r1 = r2 := funext fun s => funext (hr s)
  have h3 : t1 = t2 := funext fun s => funext (ht s)
  subst h1 h2 h3 ha hc
  rfl

theorem claim_C10_witness :
    main' (fun _ => some (str "hi")) (fun md _ => md) (fun s _ => s)
        (argsOfCli (str "a.md") (str "a.html") none none) ⟨none, none⟩ =
      main' (fun _ => some (str "hi")) (fun md _ => md) (fun s _ => s)
        (argsOfCli (str "a.md") (str "a.html") none none) ⟨none, none⟩ :=
  claim_C10 _ _ _ _ _ _ _ _ _ _ (fun _ => rfl) (fun _ _ => rfl) (fun _ _ => rfl)
    rfl rfl

/-! ## The scanner and the rewriter on well-formed documents -/

theorem begins_append_self : ∀ (p x : Str), begins p (p ++ x) = true := by
  intro p
  induction p with
  | nil => intro x; rfl
  | cons a as ih => intro x; simp [begins, ih]

theorem begins_head_ne {a c : Char} (h : a ≠ c) (ps cs : Str) :
    begins (a :: ps) (c :: cs) = false := by
  simp [begins, h]

theorem pyReplace_skip_one {pat rep : Str} {c : Char} {cs : Str}
    (h : begins pat (c :: cs) = false) :
    pyReplace pat rep (c :: cs) = c :: pyReplace pat rep cs := by
  rw [pyReplace_cons, if_neg]
  intro hc
  rw [hc.2] at h
  exact Bool.noConfusion h

theorem pyReplace_hit {pat rep : Str} (hne : pat ≠ []) (x : Str) :
    pyReplace pat rep (pat ++ x) = rep ++ pyReplace pat rep x := by
  cases pat with
  | nil => exact absurd rfl hne
  | cons p ps =>
      rw [show (p :: ps) ++ x = p :: (ps ++ x) from rfl, pyReplace_cons, if_pos]
      · have hd : (p :: (ps ++ x)).drop (p :: ps).length = x :=
          List.drop_left (p :: ps) x
        rw [hd]
      · exact ⟨List.cons_ne_nil p ps, begins_append_self (p :: ps) x⟩

theorem pyReplace_clean_append {lv : Char} {t rep : Str} :
    ∀ (s x : Str), (∀ c ∈ s, c ≠ '<') →
      pyReplace (plainTag lv t) rep (s ++ x) =
        s ++ pyReplace (plainTag lv t) rep x := by
  intro s
  induction s with
  | nil => intro x _; rfl
  | cons c cs ih =>
      intro x hs
      have hc : c ≠ '<' := hs c (List.mem_cons_self c cs)
      have hb : begins (plainTag lv t) (c :: (cs ++ x)) = false :=
        begins_head_ne (fun h => hc h.symm) _ _
      rw [show (c :: cs) ++ x = c :: (cs ++ x) from rfl, pyReplace_skip_one hb,
        ih x (fun d hd => hs d (List.mem_cons_of_mem c hd))]
      rfl

theorem pyReplace_clean_id {lv : Char} {t rep : Str} (s : Str)
    (hs : ∀ c ∈ s, c ≠ '<') : pyReplace (plainTag lv t) rep s = s := by
  have happ := @pyReplace_clean_append lv t rep s [] hs
  rw [List.append_nil, pyReplace_nil, List.append_nil] at happ
  exact happ

theorem headOpen_none_of_ne {c : Char} (h : c ≠ '<') :
    ∀ l, headOpen (c :: l) = none := by
  intro l
  rcases l with _ | ⟨b, l⟩
  · rfl
  rcases l with _ | ⟨d, l⟩
  · rfl
  rcases l with _ | ⟨e, l⟩
  · rfl
  · show (if c = '<' ∧ b = 'h' ∧ e = '>' ∧ '1' ≤ d ∧ d ≤ '6' then
        some (d, l) else none) = none
    rw [if_neg]
    intro hcon
    exact h hcon.1

theorem findAll_step_none {c : Char} {cs : Str} (h : headOpen (c :: cs) = none) :
    findAll (c :: cs) = findAll cs := by
  rw [findAll_cons, h]

theorem findAll_clean_append :
    ∀ (s x : Str), (∀ c ∈ s, c ≠ '<') → findAll (s ++ x) = findAll x := by
  intro s
  induction s with
  | nil => intro x _; rfl
  | cons c cs ih =>
      intro x hs
      have hc : c ≠ '<' := hs c (List.mem_cons_self c cs)
      rw [show (c :: cs) ++ x = c :: (cs ++ x) from rfl,
        findAll_step_none (headOpen_none_of_ne hc _),
        ih x (fun d hd => hs d (List.mem_cons_of_mem c hd))]

theorem findAll_clean (s : Str) (hs : ∀ c ∈ s, c ≠ '<') : findAll s = [] := by
  have := findAll_clean_append s [] hs
  simpa using this

/-- The non-greedy title scan on a clean title: the first `</hN>` after
the opening tag is the real closing tag. -/
theorem findTitle_clean {lv : Char} :
    ∀ (t x : Str), (∀ c ∈ t, c ≠ '<' ∧ c ≠ '\n') →
      findTitle lv (t ++ (closeTag lv ++ x)) = some (t, x) := by
  intro t
  induction t with
  | nil =>
      intro x _
      have hb : begins (closeTag lv) ('<' :: '/' :: 'h' :: lv :: '>' :: x) = true :=
        begins_append_self (closeTag lv) x
      show findTitle lv ('<' :: '/' :: 'h' :: lv :: '>' :: x) = some ([], x)
      rw [findTitle, if_pos hb]
      simp [closeTag]
  | cons c ts ih =>
      intro x ht
      have hc := ht c (List.mem_cons_self c ts)
      have hb : begins (closeTag lv) (c :: (ts ++ (closeTag lv ++ x))) = false :=
        begins_head_ne (fun h => hc.1 h.symm) _ _
      show findTitle lv (c :: (ts ++ (closeTag lv ++ x))) = some (c :: ts, x)
      rw [findTitle, if_neg, if_neg]
      · rw [ih x (fun d hd => ht d (List.mem_cons_of_mem c hd))]
        rfl
      · exact hc.2
      · simp [hb]

theorem toNat_ofNat_of_valid {n : Nat} (h : n.isValidChar) :
    (Char.ofNat n).toNat = n := by
  simp [Char.ofNat, dif_pos h, Char.ofNatAux, Char.toNat, UInt32.toNat,
    BitVec.toNat_ofNatLt]

theorem toLower_ne_of_ne {c : Char} (hne : c ≠ '<') : Char.toLower c ≠ '<' := by
  by_cases hcond : c.toNat ≥ 65 ∧ c.toNat ≤ 90
  · have he : Char.toLower c = Char.ofNat (c.toNat + 32) := by
      simp only [Char.toLower]
      rw [if_pos hcond]
    rw [he]
    intro hcon
    have hv : (Char.toNat c + 32).isValidChar := Or.inl (by omega)
    have hco := congrArg Char.toNat hcon
    rw [toNat_ofNat_of_valid hv] at hco
    have h60 : Char.toNat '<' = 60 := by decide
    rw [h60] at hco
    omega
  · have he : Char.toLower c = c := by
      simp only [Char.toLower]
      rw [if_neg hcond]
    rw [he]
    exact hne

theorem mem_subWsGo {c : Char} :
    ∀ (s : Str) (b : Bool), c ∈ subWsGo b s → c = '-' ∨ c ∈ s := by
  intro s
  induction s with
  | nil => intro b h; simp [subWsGo] at h
  | cons a as ih =>
      intro b h
      rw [subWsGo] at h
      by_cases hw : isWs a
      · rw [if_pos hw] at h
        cases b with
        | true =>
            simp only [if_pos] at h
            rcases ih true h with h1 | h2
            · exact Or.inl h1
            · exact Or.inr (List.mem_cons_of_mem a h2)
        | false =>
            simp only [Bool.false_eq_true, if_false] at h
            rcases List.mem_cons.mp h with h1 | h2
            · exact Or.inl h1
            · rcases ih true h2 with h3 | h4
              · exact Or.inl h3
              · exact Or.inr (List.mem_cons_of_mem a h4)
      · rw [if_neg hw] at h
        rcases List.mem_cons.mp h with h1 | h2
        · exact Or.inr (h1 ▸ List.mem_cons_self a as)
        · rcases ih false h2 with h3 | h4
          · exact Or.inl h3
          · exact Or.inr (List.mem_cons_of_mem a h4)

theorem anchorOf_clean {t : Str} (ht : ∀ c ∈ t, c ≠ '<') :
    ∀ c ∈ anchorOf t, c ≠ '<' := by
  intro c hc
  rcases mem_subWsGo (t.map Char.toLower) false hc with h1 | h2
  · subst h1; decide
  · rcases List.mem_map.mp h2 with ⟨c0, hc0, hlow⟩
    subst hlow
    exact toLower_ne_of_ne (ht c0 hc0)

theorem level_ne_lt {lv : Char} (h : lv ≤ '6') : lv ≠ '<' := by
  intro he
  subst he
  exact absurd h (by decide)

theorem headOpen_plain {lv : Char} (h1 : '1' ≤ lv) (h2 : lv ≤ '6') (t x : Str) :
    headOpen (plainTag lv t ++ x) = some (lv, (t ++ closeTag lv) ++ x) := by
  show (if '<' = '<' ∧ 'h' = 'h' ∧ '>' = '>' ∧ '1' ≤ lv ∧ lv ≤ '6' then
      some (lv, (t ++ closeTag lv) ++ x) else none) = some (lv, (t ++ closeTag lv) ++ x)
  rw [if_pos ⟨rfl, rfl, rfl, h1, h2⟩]

theorem findAll_plain_cons {lv : Char} {t : Str} (h1 : '1' ≤ lv) (h2 : lv ≤ '6')
    (ht : ∀ c ∈ t, c ≠ '<' ∧ c ≠ '\n') (x : Str) :
    findAll (plainTag lv t ++ x) = (lv, t) :: findAll x := by
  have e : plainTag lv t ++ x = '<' :: ('h' :: lv :: '>' :: ((t ++ closeTag lv) ++ x)) := rfl
  rw [e, findAll_cons]
  have hop : headOpen ('<' :: 'h' :: lv :: '>' :: ((t ++ closeTag lv) ++ x)) =
      some (lv, (t ++ closeTag lv) ++ x) := headOpen_plain h1 h2 t x
  rw [hop]
  dsimp only
  have hts : (t ++ closeTag lv) ++ x = t ++ (closeTag lv ++ x) := by
    rw [List.append_assoc]
  rw [hts, findTitle_clean t x ht]

/-- On a well-formed document the scan finds exactly the headings of the
assembly. -/
theorem findAll_assemble :
    ∀ (segs : List (Str × Char × Str)) (tail : Str),
      (∀ e ∈ segs, ('1' ≤ e.2.1 ∧ e.2.1 ≤ '6') ∧ (∀ c ∈ e.1, c ≠ '<') ∧
        (∀ c ∈ e.2.2, c ≠ '<' ∧ c ≠ '\n')) →
      (∀ c ∈ tail, c ≠ '<') →
      findAll (assembleF plainTag segs tail) =
        segs.map (fun e => (e.2.1, e.2.2)) := by
  intro segs
  induction segs with
  | nil => intro tail _ htail; exact findAll_clean tail htail
  | cons e rest ih =>
      intro tail hall htail
      obtain ⟨sep, lv, t⟩ := e
      have he := hall _ (List.mem_cons_self _ _)
      dsimp only at he
      rw [assembleF]
      dsimp only
      rw [findAll_clean_append sep _ he.2.1]
      rw [findAll_plain_cons he.1.1 he.1.2 he.2.2 _]
      rw [ih tail (fun d hd => hall d (List.mem_cons_of_mem _ hd)) htail]
      rfl

/-- The TOC component of `generate_toc` is the matches list, each match
carrying the anchor derived from its title. -/
theorem generate_toc_fst (html : Str) :
    (generate_toc html).1 =
      (findAll html).map (fun m => (m.2, anchorOf m.2)) := by
  have aux : ∀ (ms : List (Char × Str)) (acc : List (Str × Str)) (h : Str),
      (ms.foldl
        (fun acc m =>
          (acc.1 ++ [(m.2, anchorOf m.2)],
            pyReplace (plainTag m.1 m.2) (idTag m.1 m.2) acc.2)) (acc, h)).1 =
        acc ++ ms.map (fun m => (m.2, anchorOf m.2)) := by
    intro ms
    induction ms with
    | nil => intro acc h; simp
    | cons m rest ih =>
        intro acc h
        rw [List.foldl_cons]
        dsimp only
        rw [ih]
        simp
  simpa only [generate_toc] using aux (findAll html) [] html

/-- C5: every TOC entry's anchor is derived deterministically from its
title by lowercasing and replacing each whitespace run with one hyphen
(`anchorOf`), punctuation untouched; and on the input
`<h1>Hello World</h1>` the annotator returns the TOC entry
(title `Hello World`, anchor `hello-world`) and rewrites the tag to
`<h1 id="hello-world">Hello World</h1>`. -/
theorem claim_C5 :
    (∀ (html : Str) (e : Str × Str),
        e ∈ (generate_toc html).1 → e.2 = anchorOf e.1) ∧
    generate_toc (str "<h1>Hello World</h1>") =
      ([(str "Hello World", str "hello-world")],
        str "<h1 id=\"hello-world\">Hello World</h1>") := by
  constructor
  · intro html e he
    rw [generate_toc_fst] at he
    rcases List.mem_map.mp he with ⟨m, -, rfl⟩
    rfl
  · decide

theorem claim_C5_witness :
    (str "Hello World", str "hello-world").2 =
      anchorOf (str "Hello World", str "hello-world").1 :=
  claim_C5.1 (str "<h1>Hello World</h1>")
    (str "Hello World", str "hello-world") (by decide)

/-- C3: two headings with identical level and identical exact text
receive the same anchor — anchors are a function of the title alone, and
the first replace-all pass rewrites both occurrences at once, so anchors
are not unique: on `<h1>Hi</h1><p>x</p><h1>Hi</h1>` both headings end up
with `id="hi"` (the second replace pass finds nothing left to rewrite)
and the TOC holds the duplicate entry twice. -/
theorem claim_C3 :
    (∀ (html : Str) (e1 e2 : Str × Str),
        e1 ∈ (generate_toc html).1 → e2 ∈ (generate_toc html).1 →
        e1.1 = e2.1 → e1.2 = e2.2) ∧
    generate_toc (str "<h1>Hi</h1><p>x</p><h1>Hi</h1>") =
      ([(str "Hi", str "hi"), (str "Hi", str "hi")],
        str "<h1 id=\"hi\">Hi</h1><p>x</p><h1 id=\"hi\">Hi</h1>") := by
  constructor
  · intro html e1 e2 h1 h2 ht
    rw [generate_toc_fst] at h1 h2
    rcases List.mem_map.mp h1 with ⟨m1, -, rfl⟩
    rcases List.mem_map.mp h2 with ⟨m2, -, rfl⟩
    dsimp only at ht ⊢
    rw [ht]
  · decide

theorem claim_C3_witness :
    (str "Hi", str "hi").2 = (str "Hi", str "hi").2 :=
  claim_C3.1 (str "<h1>Hi</h1><p>x</p><h1>Hi</h1>")
    (str "Hi", str "hi") (str "Hi", str "hi") (by decide) (by decide) rfl

/-- C2, counterexample: the round-trip claim quantifies over every HTML
input with up to six headings whose (level, title) pairs are pairwise
distinct.  On `<h1>X<h2>B</h2>Y</h1><h2>b</h2>` the scanner finds the
two distinct headings (1, `X<h2>B</h2>Y`) and (2, `b`); the anchor of
the first is `x<h2>b</h2>y`, and after it is injected, the replace-all
pass for the second heading also rewrites the copy of `<h2>b</h2>`
sitting inside that injected id attribute, so the anchor recorded in
the TOC no longer appears anywhere in the returned HTML (its id
attribute was corrupted to `x<h2 id="b">b</h2>y`): the TOC and the
HTML diverge. -/
theorem claim_C2_cex :
    findAll (str "<h1>X<h2>B</h2>Y</h1><h2>b</h2>") =
      [('1', str "X<h2>B</h2>Y"), ('2', str "b")] ∧
    (generate_toc (str "<h1>X<h2>B</h2>Y</h1><h2>b</h2>")).1 =
      [(str "X<h2>B</h2>Y", str "x<h2>b</h2>y"), (str "b", str "b")] ∧
    containsSub (str "id=\"x<h2>b</h2>y\"")
      (generate_toc (str "<h1>X<h2>B</h2>Y</h1><h2>b</h2>")).2 = false := by
  refine ⟨by decide, by decide, by decide⟩

/-! ## Non-interference of the replace passes on well-formed documents -/

theorem begins_plainTag_idTag (lv lv' : Char) (t t' x : Str) :
    begins (plainTag lv t) (idTag lv' t' ++ x) = false := by
  simp [plainTag, openTag, closeTag, idTag, begins]

theorem begins_plainTag_closeTag (lv lv' : Char) (t x : Str) :
    begins (plainTag lv t) (closeTag lv' ++ x) = false := by
  simp [plainTag, openTag, closeTag, begins]

theorem begins_tail_ne :
    ∀ (t t' : Str) (lv : Char) (x : Str), (∀ c ∈ t, c ≠ '<') →
      (∀ c ∈ t', c ≠ '<') → t ≠ t' →
      begins (t ++ closeTag lv) (t' ++ (closeTag lv ++ x)) = false := by
  intro t
  induction t with
  | nil =>
      intro t' lv x _ ht' hne
      cases t' with
      | nil => exact absurd rfl hne
      | cons c' ts' =>
          have hc' : c' ≠ '<' := ht' c' (List.mem_cons_self c' ts')
          show begins (closeTag lv) (c' :: (ts' ++ (closeTag lv ++ x))) = false
          exact begins_head_ne (fun h => hc' h.symm) _ _
  | cons c ts ih =>
      intro t' lv x ht ht' hne
      have hc : c ≠ '<' := ht c (List.mem_cons_self c ts)
      cases t' with
      | nil =>
          show begins (c :: (ts ++ closeTag lv)) ('<' :: ('/' :: 'h' :: lv :: '>' :: x)) = false
          exact begins_head_ne hc _ _
      | cons c' ts' =>
          show (decide (c = c') &&
            begins (ts ++ closeTag lv) (ts' ++ (closeTag lv ++ x))) = false
          by_cases hcc : c = c'
          · subst hcc
            have hts : ts ≠ ts' := fun h => hne (by rw [h])
            rw [ih ts' lv x (fun d hd => ht d (List.mem_cons_of_mem c hd))
              (fun d hd => ht' d (List.mem_cons_of_mem c hd)) hts]
            simp
          · simp [hcc]

theorem begins_plain_ne {lv lv' : Char} {t t' : Str}
    (ht : ∀ c ∈ t, c ≠ '<') (ht' : ∀ c ∈ t', c ≠ '<')
    (hne : ¬(lv = lv' ∧ t = t')) (x : Str) :
    begins (plainTag lv t) (plainTag lv' t' ++ x) = false := by
  have e : plainTag lv' t' ++ x =
      '<' :: 'h' :: lv' :: '>' :: (t' ++ (closeTag lv' ++ x)) := by
    simp [plainTag, openTag, closeTag]
  rw [e]
  show (decide ('<' = '<') && (decide ('h' = 'h') && (decide (lv = lv') &&
    (decide ('>' = '>') &&
      begins (t ++ closeTag lv) (t' ++ (closeTag lv' ++ x)))))) = false
  by_cases hl : lv = lv'
  · subst hl
    have htt : t ≠ t' := fun h => hne ⟨rfl, h⟩
    rw [begins_tail_ne t t' lv x ht ht' htt]
    simp
  · simp [hl]

theorem pyReplace_idTag_append {lv : Char} {t rep : Str} {lv' : Char} {t' : Str}
    (hlv' : lv' ≤ '6') (ht' : ∀ c ∈ t', c ≠ '<') (x : Str) :
    pyReplace (plainTag lv t) rep (idTag lv' t' ++ x) =
      idTag lv' t' ++ pyReplace (plainTag lv t) rep x := by
  have hb1 : begins (plainTag lv t) (idTag lv' t' ++ x) = false :=
    begins_plainTag_idTag lv lv' t t' x
  have e1 : idTag lv' t' ++ x =
      '<' :: (('h' :: lv' :: ' ' :: 'i' :: 'd' :: '=' :: '"' ::
        (anchorOf t' ++ '"' :: '>' :: t')) ++ (closeTag lv' ++ x)) := by
    simp [idTag]
  rw [e1] at hb1 ⊢
  rw [pyReplace_skip_one hb1]
  have hS1 : ∀ c ∈ ('h' :: lv' :: ' ' :: 'i' :: 'd' :: '=' :: '"' ::
      (anchorOf t' ++ '"' :: '>' :: t')), c ≠ '<' := by
    intro c hc
    simp only [List.mem_cons, List.mem_append] at hc
    rcases hc with rfl | rfl | rfl | rfl | rfl | rfl | rfl | hc | rfl | rfl | hc
    · decide
    · exact level_ne_lt hlv'
    · decide
    · decide
    · decide
    · decide
    · decide
    · exact anchorOf_clean ht' c hc
    · decide
    · decide
    · exact ht' c hc
  rw [pyReplace_clean_append _ _ hS1]
  have hb2 : begins (plainTag lv t) (closeTag lv' ++ x) = false :=
    begins_plainTag_closeTag lv lv' t x
  have e2 : closeTag lv' ++ x = '<' :: (('/' :: 'h' :: lv' :: '>' :: []) ++ x) := by
    simp [closeTag]
  rw [e2] at hb2 ⊢
  rw [pyReplace_skip_one hb2]
  have hS2 : ∀ c ∈ ('/' :: 'h' :: lv' :: '>' :: ([] : Str)), c ≠ '<' := by
    intro c hc
    simp only [List.mem_cons, List.not_mem_nil, or_false] at hc
    rcases hc with rfl | rfl | rfl | rfl
    · decide
    · decide
    · exact level_ne_lt hlv'
    · decide
  rw [pyReplace_clean_append _ _ hS2]
  simp [idTag, closeTag]

theorem pyReplace_plain_ne_append {lv : Char} {t rep : Str} {lv' : Char} {t' : Str}
    (hlv' : lv' ≤ '6') (ht : ∀ c ∈ t, c ≠ '<') (ht' : ∀ c ∈ t', c ≠ '<')
    (hne : ¬(lv = lv' ∧ t = t')) (x : Str) :
    pyReplace (plainTag lv t) rep (plainTag lv' t' ++ x) =
      plainTag lv' t' ++ pyReplace (plainTag lv t) rep x := by
  have hb1 : begins (plainTag lv t) (plainTag lv' t' ++ x) = false :=
    begins_plain_ne ht ht' hne x
  have e1 : plainTag lv' t' ++ x =
      '<' :: (('h' :: lv' :: '>' :: t') ++ (closeTag lv' ++ x)) := by
    simp [plainTag, openTag]
  rw [e1] at hb1 ⊢
  rw [pyReplace_skip_one hb1]
  have hS1 : ∀ c ∈ ('h' :: lv' :: '>' :: t'), c ≠ '<' := by
    intro c hc
    simp only [List.mem_cons] at hc
    rcases hc with rfl | rfl | rfl | hc
    · decide
    · exact level_ne_lt hlv'
    · decide
    · exact ht' c hc
  rw [pyReplace_clean_append _ _ hS1]
  have hb2 : begins (plainTag lv t) (closeTag lv' ++ x) = false :=
    begins_plainTag_closeTag lv lv' t x
  have e2 : closeTag lv' ++ x = '<' :: (('/' :: 'h' :: lv' :: '>' :: []) ++ x) := by
    simp [closeTag]
  rw [e2] at hb2 ⊢
  rw [pyReplace_skip_one hb2]
  have hS2 : ∀ c ∈ ('/' :: 'h' :: lv' :: '>' :: ([] : Str)), c ≠ '<' := by
    intro c hc
    simp only [List.mem_cons, List.not_mem_nil, or_false] at hc
    rcases hc with rfl | rfl | rfl | rfl
    · decide
    · decide
    · exact level_ne_lt hlv'
    · decide
  rw [pyReplace_clean_append _ _ hS2]
  simp [plainTag, openTag, closeTag]

/-- If the pattern heading differs (as a (level, title) pair) from every
heading of a still-unannotated well-formed document, the replace pass
leaves the document unchanged. -/
theorem pyReplace_assemble_plain_skip {lv : Char} {t rep : Str}
    (ht : ∀ c ∈ t, c ≠ '<') :
    ∀ (todo : List (Str × Char × Str)) (tail : Str),
      (∀ e ∈ todo, ('1' ≤ e.2.1 ∧ e.2.1 ≤ '6') ∧ (∀ c ∈ e.1, c ≠ '<') ∧
        (∀ c ∈ e.2.2, c ≠ '<' ∧ c ≠ '\n')) →
      (∀ c ∈ tail, c ≠ '<') →
      (∀ e ∈ todo, ¬(lv = e.2.1 ∧ t = e.2.2)) →
      pyReplace (plainTag lv t) rep (assembleF plainTag todo tail) =
        assembleF plainTag todo tail := by
  intro todo
  induction todo with
  | nil => intro tail _ htail _; exact pyReplace_clean_id tail htail
  | cons e rest ih =>
      intro tail hall htail hne
      obtain ⟨sep, lv', t'⟩ := e
      have he := hall _ (List.mem_cons_self _ _)
      dsimp only at he
      have hene := hne _ (List.mem_cons_self _ _)
      dsimp only at hene
      rw [assembleF]
      dsimp only
      rw [pyReplace_clean_append _ _ he.2.1]
      rw [pyReplace_plain_ne_append he.1.2 ht (fun c hc => (he.2.2 c hc).1) hene]
      rw [ih tail (fun d hd => hall d (List.mem_cons_of_mem _ hd)) htail
        (fun d hd => hne d (List.mem_cons_of_mem _ hd))]

/-- The replace pass distributes over the already-annotated front of the
document: annotated headings and clean separators are never rewritten. -/
theorem pyReplace_assemble_id_append {lv : Char} {t rep : Str} :
    ∀ (done : List (Str × Char × Str)) (y : Str),
      (∀ e ∈ done, ('1' ≤ e.2.1 ∧ e.2.1 ≤ '6') ∧ (∀ c ∈ e.1, c ≠ '<') ∧
        (∀ c ∈ e.2.2, c ≠ '<' ∧ c ≠ '\n')) →
      pyReplace (plainTag lv t) rep (assembleF idTag done y) =
        assembleF idTag done (pyReplace (plainTag lv t) rep y) := by
  intro done
  induction done with
  | nil => intro y _; rfl
  | cons e rest ih =>
      intro y hall
      obtain ⟨sep, lv', t'⟩ := e
      have he := hall _ (List.mem_cons_self _ _)
      dsimp only at he
      rw [assembleF]
      dsimp only
      rw [pyReplace_clean_append _ _ he.2.1]
      rw [pyReplace_idTag_append he.1.2 (fun c hc => (he.2.2 c hc).1)]
      rw [ih y (fun d hd => hall d (List.mem_cons_of_mem _ hd))]
      rfl

theorem assembleF_append (f : Char → Str → Str) :
    ∀ (d1 d2 : List (Str × Char × Str)) (y : Str),
      assembleF f (d1 ++ d2) y = assembleF f d1 (assembleF f d2 y) := by
  intro d1
  induction d1 with
  | nil => intro d2 y; rfl
  | cons e rest ih =>
      intro d2 y
      rw [show (e :: rest) ++ d2 = e :: (rest ++ d2) from rfl]
      rw [assembleF, assembleF, ih]

theorem plainTag_ne_nil (lv : Char) (t : Str) : plainTag lv t ≠ [] := by
  simp [plainTag, openTag]

/-- The invariant of the `generate_toc` fold on a well-formed document:
processing the remaining matches annotates exactly the remaining
headings, in place, and appends exactly their TOC entries. -/
theorem generate_toc_fold :
    ∀ (todo done : List (Str × Char × Str)) (tail : Str)
      (tocAcc : List (Str × Str)),
      (∀ e ∈ done ++ todo, ('1' ≤ e.2.1 ∧ e.2.1 ≤ '6') ∧
        (∀ c ∈ e.1, c ≠ '<') ∧ (∀ c ∈ e.2.2, c ≠ '<' ∧ c ≠ '\n')) →
      (∀ c ∈ tail, c ≠ '<') →
      ((done ++ todo).map (fun e => (e.2.1, e.2.2))).Nodup →
      (todo.map (fun e => (e.2.1, e.2.2))).foldl
          (fun acc m =>
            (acc.1 ++ [(m.2, anchorOf m.2)],
              pyReplace (plainTag m.1 m.2) (idTag m.1 m.2) acc.2))
          (tocAcc, assembleF idTag done (assembleF plainTag todo tail)) =
        (tocAcc ++ todo.map (fun e => (e.2.2, anchorOf e.2.2)),
          assembleF idTag (done ++ todo) tail) := by
  intro todo
  induction todo with
  | nil =>
      intro done tail tocAcc hall htail hnd
      simp [assembleF]
  | cons e todo' ih =>
      intro done tail tocAcc hall htail hnd
      obtain ⟨sep, lv, t⟩ := e
      have hemem : (sep, lv, t) ∈ done ++ ((sep, lv, t) :: todo') :=
        List.mem_append_right _ (List.mem_cons_self _ _)
      have he := hall _ hemem
      dsimp only at he
      have hdone : ∀ d ∈ done, ('1' ≤ d.2.1 ∧ d.2.1 ≤ '6') ∧
          (∀ c ∈ d.1, c ≠ '<') ∧ (∀ c ∈ d.2.2, c ≠ '<' ∧ c ≠ '\n') :=
        fun d hd => hall d (List.mem_append_left _ hd)
      have htodo' : ∀ d ∈ todo', ('1' ≤ d.2.1 ∧ d.2.1 ≤ '6') ∧
          (∀ c ∈ d.1, c ≠ '<') ∧ (∀ c ∈ d.2.2, c ≠ '<' ∧ c ≠ '\n') :=
        fun d hd => hall d
          (List.mem_append_right _ (List.mem_cons_of_mem _ hd))
      have hnd2 : ((((sep, lv, t) :: todo')).map
          (fun e => (e.2.1, e.2.2))).Nodup := by
        rw [List.map_append] at hnd
        exact List.Nodup.of_append_right hnd
      have hnotin : (lv, t) ∉ todo'.map (fun e => (e.2.1, e.2.2)) := by
        rw [List.map_cons] at hnd2
        exact (List.nodup_cons.mp hnd2).1
      have hnetodo : ∀ d ∈ todo', ¬(lv = d.2.1 ∧ t = d.2.2) := by
        intro d hd hcon
        apply hnotin
        refine List.mem_map.mpr ⟨d, hd, ?_⟩
        rw [← hcon.1, ← hcon.2]
      rw [List.map_cons, List.foldl_cons]
      dsimp only
      rw [pyReplace_assemble_id_append done _ hdone]
      rw [show assembleF plainTag ((sep, lv, t) :: todo') tail =
        sep ++ (plainTag lv t ++ assembleF plainTag todo' tail) from rfl]
      rw [pyReplace_clean_append _ _ he.2.1]
      rw [pyReplace_hit (plainTag_ne_nil lv t) _]
      rw [pyReplace_assemble_plain_skip (fun c hc => (he.2.2 c hc).1)
        todo' tail htodo' htail hnetodo]
      have hrearr : assembleF idTag done
          (sep ++ (idTag lv t ++ assembleF plainTag todo' tail)) =
          assembleF idTag (done ++ [(sep, lv, t)])
            (assembleF plainTag todo' tail) := by
        rw [assembleF_append]
        rfl
      rw [hrearr]
      have hall' : ∀ d ∈ (done ++ [(sep, lv, t)]) ++ todo',
          ('1' ≤ d.2.1 ∧ d.2.1 ≤ '6') ∧ (∀ c ∈ d.1, c ≠ '<') ∧
          (∀ c ∈ d.2.2, c ≠ '<' ∧ c ≠ '\n') := by
        intro d hd
        apply hall
        rw [List.append_assoc] at hd
        simpa using hd
      have hnd' : (((done ++ [(sep, lv, t)]) ++ todo').map
          (fun e => (e.2.1, e.2.2))).Nodup := by
        rw [List.append_assoc]
        simpa using hnd
      rw [ih (done ++ [(sep, lv, t)]) tail (tocAcc ++ [(t, anchorOf t)])
        hall' htail hnd']
      simp [List.append_assoc]

/-- C2, amended: the round-trip does hold on well-formed inputs.  For a
document assembled from up to six headings `<hN>title</hN>` with
pairwise-distinct (level, title) pairs, whose titles contain no `<` and
no newline and whose surrounding text contains no `<`, `generate_toc`
returns exactly the TOC entries (title, anchor) of the headings in
document order, and the returned HTML is the same document with every
heading rewritten in place to `<hN id="anchor">title</hN>` — so every
anchor of the TOC appears as the id of exactly the heading it was
derived from.  (The amendment excludes inputs whose heading titles
themselves contain heading markup, where the counterexample shows the
replace passes interfere.) -/
theorem claim_C2_amended (segs : List (Str × Char × Str)) (tail : Str)
    (hk : segs.length ≤ 6)
    (hall : ∀ e ∈ segs, ('1' ≤ e.2.1 ∧ e.2.1 ≤ '6') ∧
      (∀ c ∈ e.1, c ≠ '<') ∧ (∀ c ∈ e.2.2, c ≠ '<' ∧ c ≠ '\n'))
    (htail : ∀ c ∈ tail, c ≠ '<')
    (hnd : (segs.map (fun e => (e.2.1, e.2.2))).Nodup) :
    generate_toc (assembleF plainTag segs tail) =
      (segs.map (fun e => (e.2.2, anchorOf e.2.2)),
        assembleF idTag segs tail) := by
  show (findAll (assembleF plainTag segs tail)).foldl _ _ = _
  rw [findAll_assemble segs tail hall htail]
  have hfold := generate_toc_fold segs [] tail [] (by simpa using hall)
    htail (by simpa using hnd)
  simpa using hfold

theorem claim_C2_witness :
    generate_toc (assembleF plainTag
        [(str "", '1', str "A b"), (str "mid ", '2', str "c")] (str "end")) =
      ([(str "A b", anchorOf (str "A b")), (str "c", anchorOf (str "c"))],
        assembleF idTag
          [(str "", '1', str "A b"), (str "mid ", '2', str "c")] (str "end")) :=
  claim_C2_amended [(str "", '1', str "A b"), (str "mid ", '2', str "c")]
    (str "end") (by decide) (by decide) (by decide) (by decide)

/-! ## Mixed documents: bare headings amid attributed headings -/

theorem begins_plainTag_attrTag (lv lv' : Char) (t attrs t' x : Str) :
    begins (plainTag lv t) (attrHeadTag lv' attrs t' ++ x) = false := by
  simp [plainTag, openTag, closeTag, attrHeadTag, begins]

theorem findAll_attr_append {lv : Char} (hlv : lv ≤ '6') {attrs t : Str}
    (hattrs : ∀ c ∈ attrs, c ≠ '<') (ht : ∀ c ∈ t, c ≠ '<') (x : Str) :
    findAll (attrHeadTag lv attrs t ++ x) = findAll x := by
  have hlvne : lv ≠ '<' := level_ne_lt hlv
  have hop : headOpen ('<' :: ('h' :: lv :: ' ' ::
      ((attrs ++ '>' :: (t ++ closeTag lv)) ++ x))) = none := by
    show (if '<' = '<' ∧ 'h' = 'h' ∧ ' ' = '>' ∧ '1' ≤ lv ∧ lv ≤ '6' then
        some (lv, (attrs ++ '>' :: (t ++ closeTag lv)) ++ x) else none) = none
    rw [if_neg]
    rintro ⟨-, -, h3, -⟩
    exact absurd h3 (by decide)
  show findAll ('<' :: ('h' :: lv :: ' ' ::
      ((attrs ++ '>' :: (t ++ closeTag lv)) ++ x))) = findAll x
  rw [findAll_step_none hop]
  have e2 : ('h' :: lv :: ' ' :: ((attrs ++ '>' :: (t ++ closeTag lv)) ++ x)) =
      ('h' :: lv :: ' ' :: (attrs ++ '>' :: t)) ++ (closeTag lv ++ x) := by
    simp
  rw [e2]
  have hclean : ∀ c ∈ ('h' :: lv :: ' ' :: (attrs ++ '>' :: t)), c ≠ '<' := by
    intro c hc
    simp only [List.mem_cons, List.mem_append] at hc
    rcases hc with rfl | rfl | rfl | hc | rfl | hc
    · decide
    · exact hlvne
    · decide
    · exact hattrs c hc
    · decide
    · exact ht c hc
  rw [findAll_clean_append _ _ hclean]
  have hop2 : headOpen ('<' :: ('/' :: 'h' :: lv :: '>' :: x)) = none := by
    show (if '<' = '<' ∧ '/' = 'h' ∧ lv = '>' ∧ '1' ≤ 'h' ∧ 'h' ≤ '6' then
        some ('h', '>' :: x) else none) = none
    rw [if_neg]
    rintro ⟨-, h2, -⟩
    exact absurd h2 (by decide)
  show findAll ('<' :: ('/' :: 'h' :: lv :: '>' :: x)) = findAll x
  rw [findAll_step_none hop2]
  have hcl2 : ∀ c ∈ ('/' :: 'h' :: lv :: '>' :: ([] : Str)), c ≠ '<' := by
    intro c hc
    simp only [List.mem_cons, List.not_mem_nil, or_false] at hc
    rcases hc with rfl | rfl | rfl | rfl
    · decide
    · decide
    · exact hlvne
    · decide
  exact findAll_clean_append ('/' :: 'h' :: lv :: '>' :: []) x hcl2

theorem pyReplace_attr_append {lv : Char} {t rep : Str} {lv' : Char}
    {attrs t' : Str} (hlv' : lv' ≤ '6') (hattrs : ∀ c ∈ attrs, c ≠ '<')
    (ht' : ∀ c ∈ t', c ≠ '<') (x : Str) :
    pyReplace (plainTag lv t) rep (attrHeadTag lv' attrs t' ++ x) =
      attrHeadTag lv' attrs t' ++ pyReplace (plainTag lv t) rep x := by
  have hb1 : begins (plainTag lv t) (attrHeadTag lv' attrs t' ++ x) = false :=
    begins_plainTag_attrTag lv lv' t attrs t' x
  have e1 : attrHeadTag lv' attrs t' ++ x =
      '<' :: (('h' :: lv' :: ' ' :: (attrs ++ '>' :: t')) ++ (closeTag lv' ++ x)) := by
    simp [attrHeadTag]
  rw [e1] at hb1 ⊢
  rw [pyReplace_skip_one hb1]
  have hS1 : ∀ c ∈ ('h' :: lv' :: ' ' :: (attrs ++ '>' :: t')), c ≠ '<' := by
    intro c hc
    simp only [List.mem_cons, List.mem_append] at hc
    rcases hc with rfl | rfl | rfl | hc | rfl | hc
    · decide
    · exact level_ne_lt hlv'
    · decide
    · exact hattrs c hc
    · decide
    · exact ht' c hc
  rw [pyReplace_clean_append _ _ hS1]
  have hb2 : begins (plainTag lv t) (closeTag lv' ++ x) = false :=
    begins_plainTag_closeTag lv lv' t x
  have e2 : closeTag lv' ++ x = '<' :: (('/' :: 'h' :: lv' :: '>' :: []) ++ x) := by
    simp [closeTag]
  rw [e2] at hb2 ⊢
  rw [pyReplace_skip_one hb2]
  have hS2 : ∀ c ∈ ('/' :: 'h' :: lv' :: '>' :: ([] : Str)), c ≠ '<' := by
    intro c hc
    simp only [List.mem_cons, List.not_mem_nil, or_false] at hc
    rcases hc with rfl | rfl | rfl | rfl
    · decide
    · decide
    · exact level_ne_lt hlv'
    · decide
  rw [pyReplace_clean_append _ _ hS2]
  simp [attrHeadTag, closeTag]

theorem segMatches_append (a b : List (Str × HeadSeg)) :
    segMatches (a ++ b) = segMatches a ++ segMatches b := by
  simp [segMatches, List.filterMap_append]

/-- On a well-formed mixed document the scan finds exactly the bare
headings — attributed headings contribute no match. -/
theorem findAll_assembleS :
    ∀ (segs : List (Str × HeadSeg)) (tail : Str),
      (∀ e ∈ segs, segOk e) → (∀ c ∈ tail, c ≠ '<') →
      findAll (assembleS plainTag segs tail) = segMatches segs := by
  intro segs
  induction segs with
  | nil => intro tail _ htail; exact findAll_clean tail htail
  | cons e rest ih =>
      intro tail hall htail
      obtain ⟨sep, g⟩ := e
      have he := hall _ (List.mem_cons_self _ _)
      have hrest : ∀ d ∈ rest, segOk d :=
        fun d hd => hall d (List.mem_cons_of_mem _ hd)
      cases g with
      | bare lv t =>
          obtain ⟨hlv, hsep, ht⟩ := he
          rw [assembleS]
          dsimp only [renderSeg]
          rw [findAll_clean_append _ _ hsep]
          rw [findAll_plain_cons hlv.1 hlv.2 ht _]
          rw [ih tail hrest htail]
          rfl
      | attributed lv attrs t =>
          obtain ⟨hlv, hsep, hattrs, ht⟩ := he
          rw [assembleS]
          dsimp only [renderSeg]
          rw [findAll_clean_append _ _ hsep]
          rw [findAll_attr_append hlv.2 hattrs ht _]
          rw [ih tail hrest htail]
          rfl

/-- If the pattern heading differs from every bare heading of a
still-unannotated well-formed mixed document, the replace pass leaves
the document unchanged — in particular it never touches an attributed
heading. -/
theorem pyReplace_assembleS_plain_skip {lv : Char} {t rep : Str}
    (ht : ∀ c ∈ t, c ≠ '<') :
    ∀ (todo : List (Str × HeadSeg)) (tail : Str),
      (∀ e ∈ todo, segOk e) → (∀ c ∈ tail, c ≠ '<') →
      (∀ m ∈ segMatches todo, ¬(lv = m.1 ∧ t = m.2)) →
      pyReplace (plainTag lv t) rep (assembleS plainTag todo tail) =
        assembleS plainTag todo tail := by
  intro todo
  induction todo with
  | nil => intro tail _ htail _; exact pyReplace_clean_id tail htail
  | cons e rest ih =>
      intro tail hall htail hne
      obtain ⟨sep, g⟩ := e
      have he := hall _ (List.mem_cons_self _ _)
      have hrest : ∀ d ∈ rest, segOk d :=
        fun d hd => hall d (List.mem_cons_of_mem _ hd)
      cases g with
      | bare lv' t' =>
          obtain ⟨hlv', hsep, ht'⟩ := he
          have hmem : (lv', t') ∈ segMatches ((sep, HeadSeg.bare lv' t') :: rest) :=
            List.mem_cons_self _ _
          have hne' : ∀ m ∈ segMatches rest, ¬(lv = m.1 ∧ t = m.2) :=
            fun m hm => hne m (List.mem_cons_of_mem _ hm)
          rw [assembleS]
          dsimp only [renderSeg]
          rw [pyReplace_clean_append _ _ hsep]
          rw [pyReplace_plain_ne_append hlv'.2 ht
            (fun c hc => (ht' c hc).1) (hne _ hmem)]
          rw [ih tail hrest htail hne']
      | attributed lv' attrs t' =>
          obtain ⟨hlv', hsep, hattrs, ht'⟩ := he
          have hne' : ∀ m ∈ segMatches rest, ¬(lv = m.1 ∧ t = m.2) :=
            fun m hm => hne m hm
          rw [assembleS]
          dsimp only [renderSeg]
          rw [pyReplace_clean_append _ _ hsep]
          rw [pyReplace_attr_append hlv'.2 hattrs ht']
          rw [ih tail hrest htail hne']

/-- The replace pass distributes over the already-annotated front of a
mixed document. -/
theorem pyReplace_assembleS_id_append {lv : Char} {t rep : Str} :
    ∀ (done : List (Str × HeadSeg)) (y : Str),
      (∀ e ∈ done, segOk e) →
      pyReplace (plainTag lv t) rep (assembleS idTag done y) =
        assembleS idTag done (pyReplace (plainTag lv t) rep y) := by
  intro done
  induction done with
  | nil => intro y _; rfl
  | cons e rest ih =>
      intro y hall
      obtain ⟨sep, g⟩ := e
      have he := hall _ (List.mem_cons_self _ _)
      have hrest : ∀ d ∈ rest, segOk d :=
        fun d hd => hall d (List.mem_cons_of_mem _ hd)
      cases g with
      | bare lv' t' =>
          obtain ⟨hlv', hsep, ht'⟩ := he
          rw [assembleS]
          dsimp only [renderSeg]
          rw [pyReplace_clean_append _ _ hsep]
          rw [pyReplace_idTag_append hlv'.2 (fun c hc => (ht' c hc).1)]
          rw [ih y hrest]
          rfl
      | attributed lv' attrs t' =>
          obtain ⟨hlv', hsep, hattrs, ht'⟩ := he
          rw [assembleS]
          dsimp only [renderSeg]
          rw [pyReplace_clean_append _ _ hsep]
          rw [pyReplace_attr_append hlv'.2 hattrs ht']
          rw [ih y hrest]
          rfl

theorem assembleS_append (f : Char → Str → Str) :
    ∀ (d1 d2 : List (Str × HeadSeg)) (y : Str),
      assembleS f (d1 ++ d2) y = assembleS f d1 (assembleS f d2 y) := by
  intro d1
  induction d1 with
  | nil => intro d2 y; rfl
  | cons e rest ih =>
      intro d2 y
      rw [show (e :: rest) ++ d2 = e :: (rest ++ d2) from rfl]
      rw [assembleS, assembleS, ih]

/-- Invariant of the `generate_toc` fold on a well-formed mixed
document: processing the remaining bare-heading matches annotates
exactly the remaining bare headings in place, appends exactly their TOC
entries, and leaves every attributed heading byte-for-byte unchanged. -/
theorem generate_toc_fold_S :
    ∀ (todo done : List (Str × HeadSeg)) (tail : Str)
      (tocAcc : List (Str × Str)),
      (∀ e ∈ done ++ todo, segOk e) → (∀ c ∈ tail, c ≠ '<') →
      (segMatches (done ++ todo)).Nodup →
      (segMatches todo).foldl
          (fun acc m =>
            (acc.1 ++ [(m.2, anchorOf m.2)],
              pyReplace (plainTag m.1 m.2) (idTag m.1 m.2) acc.2))
          (tocAcc, assembleS idTag done (assembleS plainTag todo tail)) =
        (tocAcc ++ segEntries todo, assembleS idTag (done ++ todo) tail) := by
  intro todo
  induction todo with
  | nil =>
      intro done tail tocAcc hall htail hnd
      simp [assembleS, segMatches, segEntries]
  | cons e todo' ih =>
      intro done tail tocAcc hall htail hnd
      obtain ⟨sep, g⟩ := e
      have he := hall _ (List.mem_append_right _ (List.mem_cons_self _ _))
      have hdone : ∀ d ∈ done, segOk d :=
        fun d hd => hall d (List.mem_append_left _ hd)
      have htodo' : ∀ d ∈ todo', segOk d :=
        fun d hd => hall d
          (List.mem_append_right _ (List.mem_cons_of_mem _ hd))
      have hall' : ∀ d ∈ (done ++ [(sep, g)]) ++ todo', segOk d := by
        intro d hd
        apply hall
        rw [List.append_assoc] at hd
        simpa using hd
      have hnd' : (segMatches ((done ++ [(sep, g)]) ++ todo')).Nodup := by
        rw [List.append_assoc]
        simpa using hnd
      cases g with
      | attributed lv attrs t =>
          have hms : segMatches ((sep, HeadSeg.attributed lv attrs t) :: todo') =
              segMatches todo' := rfl
          have hse : segEntries ((sep, HeadSeg.attributed lv attrs t) :: todo') =
              segEntries todo' := rfl
          have hrearr : assembleS idTag done
              (assembleS plainTag ((sep, HeadSeg.attributed lv attrs t) :: todo') tail) =
              assembleS idTag (done ++ [(sep, HeadSeg.attributed lv attrs t)])
                (assembleS plainTag todo' tail) := by
            rw [assembleS_append]
            rfl
          rw [hms, hse, hrearr,
            ih (done ++ [(sep, HeadSeg.attributed lv attrs t)]) tail tocAcc
              hall' htail hnd']
          simp [List.append_assoc]
      | bare lv t =>
          obtain ⟨hlv, hsep, ht⟩ := he
          have hnd2 : (segMatches ((sep, HeadSeg.bare lv t) :: todo')).Nodup := by
            rw [segMatches_append] at hnd
            exact List.Nodup.of_append_right hnd
          have hnotin : (lv, t) ∉ segMatches todo' := by
            have hms0 : segMatches ((sep, HeadSeg.bare lv t) :: todo') =
                (lv, t) :: segMatches todo' := rfl
            rw [hms0] at hnd2
            exact (List.nodup_cons.mp hnd2).1
          have hnetodo : ∀ m ∈ segMatches todo', ¬(lv = m.1 ∧ t = m.2) := by
            intro m hm hcon
            apply hnotin
            have hme : (lv, t) = m := by
              rw [hcon.1, hcon.2]
            rw [hme]
            exact hm
          have hms : segMatches ((sep, HeadSeg.bare lv t) :: todo') =
              (lv, t) :: segMatches todo' := rfl
          rw [hms, List.foldl_cons]
          dsimp only
          rw [pyReplace_assembleS_id_append done _ hdone]
          rw [show assembleS plainTag ((sep, HeadSeg.bare lv t) :: todo') tail =
            sep ++ (plainTag lv t ++ assembleS plainTag todo' tail) from rfl]
          rw [pyReplace_clean_append _ _ hsep]
          rw [pyReplace_hit (plainTag_ne_nil lv t) _]
          rw [pyReplace_assembleS_plain_skip (fun c hc => (ht c hc).1)
            todo' tail htodo' htail hnetodo]
          have hrearr : assembleS idTag done
              (sep ++ (idTag lv t ++ assembleS plainTag todo' tail)) =
              assembleS idTag (done ++ [(sep, HeadSeg.bare lv t)])
                (assembleS plainTag todo' tail) := by
            rw [assembleS_append]
            rfl
          rw [hrearr]
          rw [ih (done ++ [(sep, HeadSeg.bare lv t)]) tail
            (tocAcc ++ [(t, anchorOf t)]) hall' htail hnd']
          have hse : segEntries ((sep, HeadSeg.bare lv t) :: todo') =
              (t, anchorOf t) :: segEntries todo' := rfl
          rw [hse]
          simp [List.append_assoc]

/-- C6, amended: the scanner only matches bare heading tags
`<hN>…</hN>`, and the Markdown Renderer is invoked with the `toc`
extension, which emits headings with id attributes.  Amended scope: for
every document interleaving bare and attributed headings whose titles,
attribute texts and surrounding text contain no `<` (and bare titles no
newline), with the bare (level, title) pairs pairwise distinct, an
attributed heading such as `<h1 id="x">Title</h1>` contributes no TOC
entry and appears byte-for-byte unchanged in the returned HTML — the
output is the input with only the bare headings rewritten.  (The
amendment is forced by the counterexample: with markup nested inside an
attributed heading the scanner matches the nested bare tag and rewrites
the attributed heading's bytes.) -/
theorem claim_C6 :
    (∀ (segs : List (Str × HeadSeg)) (tail : Str),
        (∀ e ∈ segs, segOk e) → (∀ c ∈ tail, c ≠ '<') →
        (segMatches segs).Nodup →
        generate_toc (assembleS plainTag segs tail) =
          (segEntries segs, assembleS idTag segs tail)) ∧
    (∀ (render : Str → List Str → Str) (md : Str),
        convert_markdown_to_html render md = render md [str "toc"]) := by
  constructor
  · intro segs tail hall htail hnd
    show (findAll (assembleS plainTag segs tail)).foldl _ _ = _
    rw [findAll_assembleS segs tail hall htail]
    exact generate_toc_fold_S segs [] tail [] hall htail hnd
  · intro render md
    rfl

theorem claim_C6_witness :
    generate_toc (assembleS plainTag
        [(str "intro ", HeadSeg.attributed '1' (str "id=\"q\"") (str "Top")),
          (str " mid ", HeadSeg.bare '2' (str "Body"))] (str " end")) =
      (segEntries
          [(str "intro ", HeadSeg.attributed '1' (str "id=\"q\"") (str "Top")),
            (str " mid ", HeadSeg.bare '2' (str "Body"))],
        assembleS idTag
          [(str "intro ", HeadSeg.attributed '1' (str "id=\"q\"") (str "Top")),
            (str " mid ", HeadSeg.bare '2' (str "Body"))] (str " end")) :=
  claim_C6.1
    [(str "intro ", HeadSeg.attributed '1' (str "id=\"q\"") (str "Top")),
      (str " mid ", HeadSeg.bare '2' (str "Body"))] (str " end")
    (by decide) (by decide) (by decide)

/-- C6, counterexample: as stated the claim quantifies over every input
HTML and promises that any attributed heading is left byte-for-byte
unchanged with no TOC entry.  On the input `<h1 id="q"><h2>T</h2></h1>`
— a single attributed heading — the scanner matches the bare
`<h2>T</h2>` nested inside it, emits the TOC entry (T, t), and the
replace pass rewrites the nested tag, so the attributed heading's bytes
change: the output is `<h1 id="q"><h2 id="t">T</h2></h1>` and the TOC
is not empty. -/
theorem claim_C6_cex :
    generate_toc (str "<h1 id=\"q\"><h2>T</h2></h1>") =
      ([(str "T", str "t")], str "<h1 id=\"q\"><h2 id=\"t\">T</h2></h1>") ∧
    str "<h1 id=\"q\"><h2 id=\"t\">T</h2></h1>" ≠
      str "<h1 id=\"q\"><h2>T</h2></h1>" := by
  refine ⟨by decide, by decide⟩
